import Mathlib

/-!
# Verification of the GPU linear-layer core (Linear.cuH + Syntari.cuH surface)

Shallow embedding of the host orchestration and kernel code of the
repository's linear-layer core.  Host matrices (`std::vector<std::vector<float>>`)
are modelled as `List (List ℚ)` (row-major, idealized exact arithmetic);
flattened device buffers as `List ℚ`.  The softmax path, which involves
`exp`, is modelled over `ℝ`.

Code under `src/Code/math/Linear.cuH` (`linear`, `addBiasEfficient`,
`linearCUBLAS`) is embedded directly.  Functions that the repository's
header `Syntari.cuH` only declares (`matmul`, `softmax`, `transpose`,
ReLU wrappers) are modelled from the spec, and say so in their doc
comments.
-/

namespace Syntari

/-- A host matrix: row-major list of rows, as `std::vector<std::vector<float>>`. -/
abbrev Mat := List (List ℚ)

/-- Modelled from the spec: `matmul` is declared in `Syntari.cuH` but its body
is not in the provided sources.  §4.6 of the design describes it as the CPU
reference triple-loop product: `C[i][j] = Σ_k A[i][k] * B[k][j]` with
`i < A.rows`, `j < B.cols` (read from `B[0]`), `k < B.rows`. -/
def matmul (A B : Mat) : Mat :=
  A.map (fun arow =>
    (List.range (B.headD []).length).map (fun j =>
      ((List.range B.length).map (fun k => arow.getD k 0 * (B.getD k []).getD j 0)).sum))

/-- ReLU activation, `max(0, x)`; the device wrapper `reluCUDA_batch` is only
declared in `Syntari.cuH`, but `linear`'s own doc comment in `Linear.cuH`
documents the result as `output = ReLU(input * weights + bias)`. -/
def relu (x : ℚ) : ℚ := max 0 x

/-- The host-side bias pass of `linear` (`Linear.cuH` lines 23–30): an
OpenMP-parallel loop over rows `i < batch_size` and columns `j < output_dim`
(with `output_dim` read from `output[0]`) performing `output[i][j] += bias[j]`;
the workers own disjoint rows. -/
def addBiasHost (output : Mat) (bias : List ℚ) : Mat :=
  let output_dim := (output.headD []).length
  output.map (fun row =>
    row.mapIdx (fun j v => if j < output_dim then v + bias.getD j 0 else v))

/-- The intermediate value `linear` computes before the activation step
(`Linear.cuH` lines 22–30): `output = matmul(input, weights)`, then
`batch_size = output.size()`, `output_dim = output[0].size()` — reading
`output[0]` is out of bounds when the matmul result is empty, modelled as
`none` — then the host bias pass `output[i][j] += bias[j]`. -/
def linearPre (input weights : Mat) (bias : List ℚ) : Option Mat :=
  match matmul input weights with
  | [] => none
  | r0 :: rest => some (addBiasHost (r0 :: rest) bias)

/-- `linear` from `Linear.cuH` lines 15–35: matmul, bias add, then ReLU
applied elementwise across the batch (`reluCUDA_batch(output, output)`). -/
def linear (input weights : Mat) (bias : List ℚ) : Option Mat :=
  (linearPre input weights bias).map (fun m => m.map (fun row => row.map relu))

/-- Modelled from the spec: `transpose` is declared in `Syntari.cuH` but its
body is not in the provided sources; §4.6 lists it among the CPU reference
functions.  `(transpose M)[j][i] = M[i][j]`, with the column count read from
`M[0]`. -/
def transpose (m : Mat) : Mat :=
  (List.range (m.headD []).length).map (fun j =>
    (List.range m.length).map (fun i => (m.getD i []).getD j 0))

/-- Row-major flattening of a host matrix, as the `insert` loops of
`linearCUBLAS` (`Linear.cuH` lines 83–91) produce it. -/
def flatten (m : Mat) : List ℚ := m.flatMap id

/-- Reassembly of the flat output buffer into 2-D form (`Linear.cuH` lines
132–134): row `i` is `flatOutput[i*outputDim .. (i+1)*outputDim)`. -/
def unflatten (flat : List ℚ) (batchSize outputDim : ℕ) : Mat :=
  (List.range batchSize).map (fun i =>
    (List.range outputDim).map (fun j => flat.getD (i * outputDim + j) 0))

/-- The cuBLAS call of `linearCUBLAS` (`Linear.cuH` lines 113–121):
`cublasSgemm(handle, CUBLAS_OP_T, CUBLAS_OP_N, outputDim, batchSize,
inputDim, …)` over the column-major views `d_weights`
(`inputDim×outputDim`, lda = `inputDim`) and `d_input`
(`inputDim×batchSize`, ldb = `inputDim`), with `alpha = 1`, `beta = 0`,
producing the column-major `outputDim×batchSize` buffer `d_output`
(ldc = `outputDim`):
`d_output[b*outputDim + o] = Σ_{k<inputDim} flatWeights[o*inputDim+k] * flatInput[b*inputDim+k]`. -/
def sgemmTN (flatWeights flatInput : List ℚ) (outputDim batchSize inputDim : ℕ) : List ℚ :=
  (List.range (batchSize * outputDim)).map (fun idx =>
    ((List.range inputDim).map (fun k =>
      flatWeights.getD (idx % outputDim * inputDim + k) 0 *
      flatInput.getD (idx / outputDim * inputDim + k) 0)).sum)

/-- The 2-D thread grid of a kernel launch with `dim3 threads(16,16)` and
`gridX × gridY` total threads: coordinates `(row, col)` with `row < gridY`,
`col < gridX`. -/
def gridThreads (gridX gridY : ℕ) : List (ℕ × ℕ) :=
  (List.range gridY).flatMap (fun r => (List.range gridX).map (fun c => (r, c)))

/-- One thread of the `addBiasEfficient` kernel (`Linear.cuH` lines 44–57):
thread `(row, col)` checks `row < batchSize && col < outputDim` and then
performs `output[row*outputDim + col] += bias[col]` at the flattened
row-major index. -/
def addBiasThread (batchSize outputDim : ℕ) (bias : List ℚ) (buf : List ℚ)
    (t : ℕ × ℕ) : List ℚ :=
  if t.1 < batchSize ∧ t.2 < outputDim then
    buf.set (t.1 * outputDim + t.2) (buf.getD (t.1 * outputDim + t.2) 0 + bias.getD t.2 0)
  else buf

/-- Aggregate effect of launching `addBiasEfficient` on a `gridX × gridY`
thread grid.  The guarded threads write pairwise disjoint cells and each
thread reads only the cell it writes, so every schedule of the threads
produces the same buffer; the launch is embedded as a fold over the grid. -/
def addBiasEfficientLaunch (batchSize outputDim gridX gridY : ℕ)
    (bias buf : List ℚ) : List ℚ :=
  (gridThreads gridX gridY).foldl (addBiasThread batchSize outputDim bias) buf

/-- The value computed by `linearCUBLAS` (`Linear.cuH` lines 66–143):
dimensions are read as `batchSize = input.size()`, `inputDim =
input[0].size()` (out of bounds for an empty batch, modelled as `none`) and
`outputDim = weights.size()`; input and weights are flattened row-major;
the cuBLAS gemm fills the flat output; `addBiasEfficient` is launched with
`threads(16,16)` and `blocks((outputDim+15)/16, (batchSize+15)/16)`; the
flat output is reassembled row by row.  No activation is applied. -/
def linearCUBLASresult (input weights : Mat) (bias : List ℚ) : Option Mat :=
  match input with
  | [] => none
  | r0 :: _ =>
    let batchSize := input.length
    let inputDim := r0.length
    let outputDim := weights.length
    let d_output := sgemmTN (flatten weights) (flatten input) outputDim batchSize inputDim
    let d_output2 := addBiasEfficientLaunch batchSize outputDim
      ((outputDim + 15) / 16 * 16) ((batchSize + 15) / 16 * 16) bias d_output
    some (unflatten d_output2 batchSize outputDim)

/-- The four device buffers `linearCUBLAS` allocates. -/
inductive BufId
  | input
  | weights
  | bias
  | output
deriving DecidableEq, Repr

/-- One step of `linearCUBLAS`'s host orchestration, as seen by the device
API together with the host's read of device results (`hostReassemble`).
`invalidDimension` is the report the spec's error taxonomy (§7) calls for;
it is part of the event vocabulary so that its absence from a trace is
expressible. -/
inductive OrchEvent
  | mallocAsync (b : BufId) (elems : ℕ)
  | memcpyH2D (b : BufId) (elems : ℕ)
  | gemm (m n k : ℕ)
  | kernelAddBias (batchSize outputDim : ℕ)
  | memcpyD2H (b : BufId) (elems : ℕ)
  | streamSync
  | hostReassemble
  | freeAsync (b : BufId)
  | invalidDimension
deriving DecidableEq, Repr

/-- The sequence of orchestration steps `linearCUBLAS` performs
(`Linear.cuH` lines 96–142) for dimensions `batchSize`, `inputDim` (read
from `input[0]`), `outputDim = weights.size()` and `biasSize = bias.size()`.
The code performs no shape validation, so the trace is the same straight
line for every input. -/
def linearCUBLAStrace (batchSize inputDim outputDim biasSize : ℕ) : List OrchEvent :=
  [.mallocAsync .input (batchSize * inputDim),
   .mallocAsync .weights (outputDim * inputDim),
   .mallocAsync .bias biasSize,
   .mallocAsync .output (batchSize * outputDim),
   .memcpyH2D .input (batchSize * inputDim),
   .memcpyH2D .weights (outputDim * inputDim),
   .memcpyH2D .bias biasSize,
   .gemm outputDim batchSize inputDim,
   .kernelAddBias batchSize outputDim,
   .memcpyD2H .output (batchSize * outputDim),
   .streamSync,
   .hostReassemble,
   .freeAsync .input,
   .freeAsync .weights,
   .freeAsync .bias,
   .freeAsync .output]

/-- `linearCUBLAS`'s orchestration trace on actual host arguments:
`batchSize = input.size()`, `inputDim = input[0].size()`,
`outputDim = weights.size()`. -/
def linearCUBLASrun (input weights : Mat) (bias : List ℚ) : List OrchEvent :=
  linearCUBLAStrace input.length (input.headD []).length weights.length bias.length

/-- Whether an orchestration event is a device-memory allocation. -/
def OrchEvent.isAlloc : OrchEvent → Bool
  | .mallocAsync _ _ => true
  | _ => false

/-- Whether an orchestration event reports an `InvalidDimension` error. -/
def OrchEvent.isInvalidDim : OrchEvent → Bool
  | .invalidDimension => true
  | _ => false

/-- Whether an orchestration event is an operation issued to the device. -/
def OrchEvent.isDeviceOp : OrchEvent → Bool
  | .mallocAsync _ _ => true
  | .memcpyH2D _ _ => true
  | .gemm _ _ _ => true
  | .kernelAddBias _ _ => true
  | .memcpyD2H _ _ => true
  | .freeAsync _ => true
  | .streamSync => false
  | .hostReassemble => false
  | .invalidDimension => false

/-- Whether an orchestration event is a host read of device results. -/
def OrchEvent.isHostRead : OrchEvent → Bool
  | .hostReassemble => true
  | _ => false

/-- The device buffers still live (allocated and not yet freed) after a
trace has run. -/
def liveAfter (tr : List OrchEvent) : List BufId :=
  tr.foldl (fun live e =>
    match e with
    | .mallocAsync b _ => live ++ [b]
    | .freeAsync b => live.erase b
    | _ => live) []

/-- Checks that every `freeAsync` in a trace frees a buffer that is live at
that point, i.e. one allocated earlier in the same call and not yet freed. -/
def freesScoped (tr : List OrchEvent) : Bool :=
  (tr.foldl (fun acc e =>
    match acc with
    | none => none
    | some live =>
      match e with
      | .mallocAsync b _ => some (live ++ [b])
      | .freeAsync b => if live.contains b then some (live.erase b) else none
      | _ => some live) (some [])).isSome

/-- Scans a trace checking that every host read of device results
(`hostReassemble`) happens only when a `streamSync` has completed after the
latest asynchronous device-to-host copy was issued.  The first flag records
that a D2H copy has been issued; the second that a sync has run since then. -/
def hostReadsSynced : List OrchEvent → Bool → Bool → Bool
  | [], _, _ => true
  | .memcpyD2H _ _ :: rest, _, _ => hostReadsSynced rest true false
  | .streamSync :: rest, seenD2H, _ => hostReadsSynced rest seenD2H seenD2H
  | .hostReassemble :: rest, seenD2H, synced => synced && hostReadsSynced rest seenD2H synced
  | _ :: rest, seenD2H, synced => hostReadsSynced rest seenD2H synced

/-- Modelled from the spec: `softmax` is declared in `Syntari.cuH` but its
body is not in the provided sources.  §4.3 of the design: reduce to the row
maximum, compute `exp(x − rowMax)` per element, reduce to the row sum, and
divide each exponentiated element by the row sum. -/
noncomputable def softmax (r : List ℝ) : List ℝ :=
  let rowMax := r.foldl max (r.headD 0)
  let exps := r.map (fun x => Real.exp (x - rowMax))
  exps.map (fun e => e / exps.sum)

end Syntari

namespace Syntari

/-! ## Helper lemmas -/

lemma getD_mapIdx {α : Type} (l : List α) (g : ℕ → α → α) (j : ℕ) (hj : j < l.length)
    (d : α) : (l.mapIdx g).getD j d = g j (l.getD j d) := by
  have hj' : j < (l.mapIdx g).length := by simpa [List.length_mapIdx] using hj
  rw [List.getD_eq_getElem _ _ hj', List.getD_eq_getElem _ _ hj]
  simpa using List.get_mapIdx l g j hj

lemma sum_list_range_eq_finset (f : ℕ → ℚ) (n : ℕ) :
    ((List.range n).map f).sum = ∑ i ∈ Finset.range n, f i := by
  induction n with
  | zero => simp
  | succ m ih => rw [List.range_succ, Finset.sum_range_succ, List.map_append]; simp [ih]

lemma matmul_length (A B : Mat) : (matmul A B).length = A.length := by
  simp [matmul]

lemma matmul_ne_nil (A B : Mat) (h : A ≠ []) : matmul A B ≠ [] := by
  intro hc
  have := matmul_length A B
  rw [hc] at this
  exact h (List.eq_nil_of_length_eq_zero this.symm)

lemma matmul_row_length (A B : Mat) (i : ℕ) (hi : i < (matmul A B).length) :
    ((matmul A B).getD i []).length = (B.headD []).length := by
  rw [List.getD_eq_getElem _ _ hi]
  simp only [matmul, List.getElem_map, List.length_map, List.length_range]

lemma matmul_entry (A B : Mat) (i j : ℕ) (hi : i < A.length)
    (hj : j < (B.headD []).length) :
    ((matmul A B).getD i []).getD j 0 =
      ((List.range B.length).map
        (fun k => (A.getD i []).getD k 0 * (B.getD k []).getD j 0)).sum := by
  have hi' : i < (matmul A B).length := by simpa [matmul_length]
  rw [List.getD_eq_getElem _ _ hi']
  have hj' : j < ((matmul A B)[i]).length := by
    simp only [matmul, List.getElem_map, List.length_map, List.length_range]
    exact hj
  rw [List.getD_eq_getElem _ _ hj']
  simp only [matmul, List.getElem_map, List.getElem_range,
    List.getD_eq_getElem?_getD, List.getElem?_eq_getElem hi]
  simp

lemma matmul_headD_length (A B : Mat) (h : A ≠ []) :
    ((matmul A B).headD []).length = (B.headD []).length := by
  have h0 : 0 < (matmul A B).length := by
    rw [matmul_length]
    exact List.length_pos.mpr h
  have hh : (matmul A B).headD [] = (matmul A B).getD 0 [] := by
    cases hO : matmul A B with
    | nil => rw [hO] at h0; simp at h0
    | cons r rest => simp
  rw [hh, matmul_row_length A B 0 h0]

lemma linearPre_eq (input weights : Mat) (bias : List ℚ) (hne : input ≠ []) :
    linearPre input weights bias =
      some (addBiasHost (matmul input weights) bias) := by
  have h := matmul_ne_nil input weights hne
  unfold linearPre
  cases hO : matmul input weights with
  | nil => exact absurd hO h
  | cons r0 rest => simp

lemma addBiasHost_eq (output : Mat) (bias : List ℚ) :
    addBiasHost output bias = output.map (fun row =>
      row.mapIdx (fun j v =>
        if j < (output.headD []).length then v + bias.getD j 0 else v)) := rfl

lemma rowMajor_inj {od r c i j : ℕ} (hc : c < od) (hj : j < od)
    (h : r * od + c = i * od + j) : r = i ∧ c = j := by
  have h1 : (r * od + c) % od = c := by
    rw [Nat.add_comm, Nat.add_mul_mod_self_right, Nat.mod_eq_of_lt hc]
  have h2 : (i * od + j) % od = j := by
    rw [Nat.add_comm, Nat.add_mul_mod_self_right, Nat.mod_eq_of_lt hj]
  have hcj : c = j := by rw [← h1, h, h2]
  subst hcj
  have hod : 0 < od := Nat.lt_of_le_of_lt (Nat.zero_le _) hc
  have hro : r * od = i * od := by omega
  exact ⟨Nat.eq_of_mul_eq_mul_right hod hro, rfl⟩

lemma rowMajor_lt {bs od i j : ℕ} (hi : i < bs) (hj : j < od) :
    i * od + j < bs * od := by
  have hstep : (i + 1) * od ≤ bs * od := Nat.mul_le_mul_right od hi
  have hexp : (i + 1) * od = i * od + od := by ring
  omega

lemma addBiasThread_length (bs od : ℕ) (bias buf : List ℚ) (t : ℕ × ℕ) :
    (addBiasThread bs od bias buf t).length = buf.length := by
  unfold addBiasThread
  split <;> simp

lemma foldl_addBiasThread_length (bs od : ℕ) (bias : List ℚ) (ts : List (ℕ × ℕ)) :
    ∀ buf : List ℚ, (ts.foldl (addBiasThread bs od bias) buf).length = buf.length := by
  induction ts with
  | nil => intro buf; rfl
  | cons t ts ih => intro buf; rw [List.foldl_cons, ih, addBiasThread_length]

lemma addBiasEfficientLaunch_length (bs od gx gy : ℕ) (bias buf : List ℚ) :
    (addBiasEfficientLaunch bs od gx gy bias buf).length = buf.length :=
  foldl_addBiasThread_length bs od bias (gridThreads gx gy) buf

lemma addBiasThread_getD_of_ne (bs od : ℕ) (bias buf : List ℚ) (t : ℕ × ℕ)
    (idx : ℕ) (d : ℚ) (h : t.1 < bs → t.2 < od → t.1 * od + t.2 ≠ idx) :
    (addBiasThread bs od bias buf t).getD idx d = buf.getD idx d := by
  unfold addBiasThread
  split
  · next hg =>
    rw [List.getD_eq_getElem?_getD, List.getElem?_set_ne (h hg.1 hg.2),
      ← List.getD_eq_getElem?_getD]
  · rfl

lemma addBiasThread_getD_writer (bs od : ℕ) (bias buf : List ℚ) (i j : ℕ)
    (hi : i < bs) (hj : j < od) (hlen : i * od + j < buf.length) :
    (addBiasThread bs od bias buf (i, j)).getD (i * od + j) 0 =
      buf.getD (i * od + j) 0 + bias.getD j 0 := by
  unfold addBiasThread
  rw [if_pos ⟨hi, hj⟩]
  rw [List.getD_eq_getElem?_getD, List.getElem?_set_eq_of_lt _ hlen]
  rfl

lemma foldl_getD_of_no_writer (bs od : ℕ) (bias : List ℚ) (idx : ℕ) (d : ℚ)
    (ts : List (ℕ × ℕ)) :
    ∀ buf : List ℚ, (∀ t ∈ ts, t.1 < bs → t.2 < od → t.1 * od + t.2 ≠ idx) →
      (ts.foldl (addBiasThread bs od bias) buf).getD idx d = buf.getD idx d := by
  induction ts with
  | nil => intro buf _; rfl
  | cons t ts ih =>
    intro buf h
    rw [List.foldl_cons, ih _ (fun u hu => h u (List.mem_cons_of_mem t hu)),
      addBiasThread_getD_of_ne bs od bias buf t idx d (h t (List.mem_cons_self t ts))]

lemma foldl_getD_single_writer (bs od : ℕ) (bias : List ℚ) (i j : ℕ)
    (hi : i < bs) (hj : j < od) (ts : List (ℕ × ℕ)) :
    ∀ buf : List ℚ, ts.count (i, j) = 1 → i * od + j < buf.length →
      (ts.foldl (addBiasThread bs od bias) buf).getD (i * od + j) 0 =
        buf.getD (i * od + j) 0 + bias.getD j 0 := by
  induction ts with
  | nil => intro buf hc _; simp at hc
  | cons t ts ih =>
    intro buf hc hlen
    rw [List.foldl_cons]
    by_cases ht : t = (i, j)
    · subst ht
      have hc' : ts.count (i, j) = 0 := by
        rw [List.count_cons_self] at hc
        omega
      have hnw : ∀ u ∈ ts, u.1 < bs → u.2 < od → u.1 * od + u.2 ≠ i * od + j := by
        intro u hu h1 h2 heq
        obtain ⟨hr, hcq⟩ := rowMajor_inj h2 hj heq
        exact (List.count_eq_zero.mp hc') (by
          have : u = (i, j) := Prod.ext hr hcq
          rwa [this] at hu)
      rw [foldl_getD_of_no_writer bs od bias (i * od + j) 0 ts _ hnw,
        addBiasThread_getD_writer bs od bias buf i j hi hj hlen]
    · have hc' : ts.count (i, j) = 1 := by
        rw [List.count_cons_of_ne (fun h => ht h.symm)] at hc
        exact hc
      have hnet : t.1 < bs → t.2 < od → t.1 * od + t.2 ≠ i * od + j := by
        intro h1 h2 heq
        obtain ⟨hr, hcq⟩ := rowMajor_inj h2 hj heq
        exact ht (Prod.ext hr hcq)
      have hlen2 : i * od + j < (addBiasThread bs od bias buf t).length := by
        rwa [addBiasThread_length]
      rw [ih _ hc' hlen2, addBiasThread_getD_of_ne bs od bias buf t _ 0 hnet]

lemma sum_list_range_eq_finset_nat (f : ℕ → ℕ) (n : ℕ) :
    ((List.range n).map f).sum = ∑ i ∈ Finset.range n, f i := by
  induction n with
  | zero => simp
  | succ m ih => rw [List.range_succ, Finset.sum_range_succ, List.map_append]; simp [ih]

lemma count_pair_map_range (r j gx : ℕ) (hj : j < gx) :
    ((List.range gx).map (fun c => (r, c))).count (r, j) = 1 := by
  induction gx with
  | zero => omega
  | succ n ih =>
    rw [List.range_succ, List.map_append, List.count_append]
    by_cases hjn : j = n
    · subst hjn
      have h0 : ((List.range j).map (fun c => (r, c))).count (r, j) = 0 := by
        rw [List.count_eq_zero]
        intro hmem
        obtain ⟨c, hc, hcc⟩ := List.mem_map.mp hmem
        simp at hcc
        rw [List.mem_range] at hc
        omega
      rw [h0]
      simp
    · rw [ih (by omega)]
      have h1 : (([n].map (fun c => (r, c))).count (r, j)) = 0 := by
        rw [List.count_eq_zero]
        intro hmem
        simp at hmem
        exact hjn hmem
      rw [h1]

lemma count_gridThreads (gx gy i j : ℕ) (hi : i < gy) (hj : j < gx) :
    (gridThreads gx gy).count (i, j) = 1 := by
  unfold gridThreads
  rw [List.count_flatMap]
  have hrow : ∀ r : ℕ, (List.count (i, j) ∘ fun r => (List.range gx).map (fun c => (r, c))) r
      = if r = i then 1 else 0 := by
    intro r
    by_cases hr : r = i
    · subst hr
      rw [Function.comp_apply, if_pos rfl]
      exact count_pair_map_range r j gx hj
    · rw [Function.comp_apply, if_neg hr, List.count_eq_zero]
      intro hmem
      obtain ⟨c, _, hc⟩ := List.mem_map.mp hmem
      exact hr (congrArg Prod.fst hc)
  rw [List.map_congr_left (fun r _ => hrow r), sum_list_range_eq_finset_nat]
  simp [Finset.sum_ite_eq, hi]

lemma addBiasEfficientLaunch_getD_in (bs od gx gy : ℕ) (bias buf : List ℚ)
    (i j : ℕ) (hi : i < bs) (hj : j < od) (higy : i < gy) (hjgx : j < gx)
    (hlen : i * od + j < buf.length) :
    (addBiasEfficientLaunch bs od gx gy bias buf).getD (i * od + j) 0 =
      buf.getD (i * od + j) 0 + bias.getD j 0 :=
  foldl_getD_single_writer bs od bias i j hi hj (gridThreads gx gy) buf
    (count_gridThreads gx gy i j higy hjgx) hlen

lemma addBiasEfficientLaunch_getD_out (bs od gx gy : ℕ) (bias buf : List ℚ)
    (idx : ℕ) (d : ℚ) (hidx : bs * od ≤ idx) :
    (addBiasEfficientLaunch bs od gx gy bias buf).getD idx d = buf.getD idx d := by
  apply foldl_getD_of_no_writer
  intro t _ h1 h2 heq
  have := rowMajor_lt h1 h2
  omega

lemma headD_eq_getD_zero {α : Type} (l : List (List α)) (h : l ≠ []) :
    l.headD [] = l.getD 0 [] := by
  cases l with
  | nil => exact absurd rfl h
  | cons r rest => simp

lemma flatten_length_uniform (m : Mat) (N : ℕ) (h : ∀ r ∈ m, r.length = N) :
    (flatten m).length = m.length * N := by
  induction m with
  | nil => simp [flatten]
  | cons r rest ih =>
    have hr : r.length = N := h r (List.mem_cons_self r rest)
    have hrest := ih (fun u hu => h u (List.mem_cons_of_mem r hu))
    simp only [flatten, List.flatMap_cons, id, List.length_append, List.length_cons]
    rw [hr]
    simp only [flatten] at hrest
    rw [hrest]
    ring

lemma flatten_getD_uniform (m : Mat) (N : ℕ) (h : ∀ r ∈ m, r.length = N)
    (i j : ℕ) (hi : i < m.length) (hj : j < N) :
    (flatten m).getD (i * N + j) 0 = (m.getD i []).getD j 0 := by
  induction m generalizing i with
  | nil => simp at hi
  | cons r rest ih =>
    have hr : r.length = N := h r (List.mem_cons_self r rest)
    cases i with
    | zero =>
      have hjr : 0 * N + j < r.length := by omega
      simp only [flatten, List.flatMap_cons, id]
      rw [List.getD_append _ _ _ _ hjr]
      simp
    | succ i' =>
      have hge : r.length ≤ (i' + 1) * N + j := by
        rw [hr]
        calc N = 1 * N := (one_mul N).symm
          _ ≤ (i' + 1) * N := Nat.mul_le_mul_right N (by omega)
          _ ≤ (i' + 1) * N + j := Nat.le_add_right _ _
      simp only [flatten, List.flatMap_cons, id]
      rw [List.getD_append_right _ _ _ _ hge]
      have harith : (i' + 1) * N + j - r.length = i' * N + j := by
        rw [hr]
        have : (i' + 1) * N = i' * N + N := by ring
        omega
      rw [harith]
      have hih := ih (fun u hu => h u (List.mem_cons_of_mem r hu)) i' (by
        simpa using Nat.lt_of_succ_lt_succ (by simpa using hi))
      simp only [flatten] at hih
      rw [hih]
      simp

lemma addBiasHost_length (output : Mat) (bias : List ℚ) :
    (addBiasHost output bias).length = output.length := by
  simp [addBiasHost]

lemma addBiasHost_row_length (output : Mat) (bias : List ℚ) (i : ℕ) :
    ((addBiasHost output bias).getD i []).length = (output.getD i []).length := by
  by_cases hi : i < output.length
  · have hi' : i < (addBiasHost output bias).length := by rwa [addBiasHost_length]
    rw [List.getD_eq_getElem _ _ hi', List.getD_eq_getElem _ _ hi]
    simp [addBiasHost]
  · push_neg at hi
    rw [List.getD_eq_default _ _ (by rwa [addBiasHost_length]), List.getD_eq_default _ _ hi]

lemma addBiasHost_rows_uniform (output : Mat) (bias : List ℚ) (N : ℕ)
    (h : ∀ r ∈ output, r.length = N) :
    ∀ r ∈ addBiasHost output bias, r.length = N := by
  intro r hr
  obtain ⟨row, hrow, rfl⟩ := List.mem_map.mp hr
  rw [List.length_mapIdx]
  exact h row hrow

lemma addBiasHost_entry (output : Mat) (bias : List ℚ) (i j : ℕ)
    (hi : i < output.length) (hj : j < (output.getD i []).length)
    (hguard : j < (output.headD []).length) :
    ((addBiasHost output bias).getD i []).getD j 0 =
      (output.getD i []).getD j 0 + bias.getD j 0 := by
  have hi' : i < (addBiasHost output bias).length := by rwa [addBiasHost_length]
  rw [List.getD_eq_getElem _ _ hi']
  show ((output.map (fun (row : List ℚ) => row.mapIdx (fun k v =>
    if k < (output.headD []).length then v + bias.getD k 0 else v)))[i]).getD j 0 = _
  rw [List.getElem_map, ← List.getD_eq_getElem output [] hi, getD_mapIdx _ _ _ hj,
    if_pos hguard]

lemma getD_range_map {α : Type} (n i : ℕ) (f : ℕ → α) (d : α) (hi : i < n) :
    ((List.range n).map f).getD i d = f i := by
  have hi' : i < ((List.range n).map f).length := by simpa using hi
  rw [List.getD_eq_getElem _ _ hi']
  simp

lemma transpose_length (m : Mat) : (transpose m).length = (m.headD []).length := by
  simp [transpose]

lemma transpose_rows_uniform (m : Mat) :
    ∀ r ∈ transpose m, r.length = m.length := by
  intro r hr
  obtain ⟨j, _, rfl⟩ := List.mem_map.mp hr
  simp

lemma transpose_entry (m : Mat) (i j : ℕ) (hi : i < m.length)
    (hj : j < (m.headD []).length) :
    ((transpose m).getD j []).getD i 0 = (m.getD i []).getD j 0 := by
  unfold transpose
  rw [getD_range_map _ _ _ _ hj, getD_range_map _ _ _ _ hi]

lemma rowMajor_div_mod (i j od : ℕ) (hj : j < od) :
    (i * od + j) / od = i ∧ (i * od + j) % od = j := by
  have hod : 0 < od := Nat.lt_of_le_of_lt (Nat.zero_le _) hj
  constructor
  · rw [Nat.mul_comm, Nat.mul_add_div hod, Nat.div_eq_of_lt hj, Nat.add_zero]
  · rw [Nat.mul_comm, Nat.mul_add_mod, Nat.mod_eq_of_lt hj]

lemma sgemmTN_length (fw fi : List ℚ) (od bs idim : ℕ) :
    (sgemmTN fw fi od bs idim).length = bs * od := by
  simp [sgemmTN]

lemma sgemmTN_getD (fw fi : List ℚ) (od bs idim i j : ℕ)
    (hi : i < bs) (hj : j < od) :
    (sgemmTN fw fi od bs idim).getD (i * od + j) 0 =
      ((List.range idim).map (fun k =>
        fw.getD (j * idim + k) 0 * fi.getD (i * idim + k) 0)).sum := by
  unfold sgemmTN
  rw [getD_range_map _ _ _ _ (rowMajor_lt hi hj)]
  obtain ⟨hdiv, hmod⟩ := rowMajor_div_mod i j od hj
  rw [hdiv, hmod]

lemma unflatten_length (flat : List ℚ) (bs od : ℕ) :
    (unflatten flat bs od).length = bs := by
  simp [unflatten]

lemma unflatten_getD_row (flat : List ℚ) (bs od i : ℕ) (hi : i < bs) :
    (unflatten flat bs od).getD i [] =
      (List.range od).map (fun j => flat.getD (i * od + j) 0) := by
  unfold unflatten
  rw [getD_range_map _ _ _ _ hi]

lemma linearCUBLASresult_cons (r0 : List ℚ) (rest weights : Mat) (bias : List ℚ) :
    linearCUBLASresult (r0 :: rest) weights bias =
      some (unflatten
        (addBiasEfficientLaunch (r0 :: rest).length weights.length
          ((weights.length + 15) / 16 * 16) (((r0 :: rest).length + 15) / 16 * 16)
          bias
          (sgemmTN (flatten weights) (flatten (r0 :: rest)) weights.length
            (r0 :: rest).length r0.length))
        (r0 :: rest).length weights.length) := rfl

lemma softmax_123_closed_form : softmax [1,2,3] =
    [Real.exp (-2) / (Real.exp (-2) + (Real.exp (-1) + 1)),
     Real.exp (-1) / (Real.exp (-2) + (Real.exp (-1) + 1)),
     1 / (Real.exp (-2) + (Real.exp (-1) + 1))] := by
  unfold softmax
  have hmax : List.foldl max (([(1:ℝ),2,3]).headD 0) [1,2,3] = 3 := by
    simp [List.foldl]
    norm_num
  rw [hmax]
  norm_num

lemma softmax_scenario_numeric :
    |(softmax [1,2,3]).getD 0 0 - 0.0900| < 0.001 ∧
    |(softmax [1,2,3]).getD 1 0 - 0.2447| < 0.001 ∧
    |(softmax [1,2,3]).getD 2 0 - 0.6652| < 0.001 := by
  have hform := softmax_123_closed_form
  set u := Real.exp (-1) with hu
  set v := Real.exp (-2) with hv
  have hvu : v = u * u := by
    rw [hv, hu, ← Real.exp_add]
    norm_num
  have he_lo : (2.7182818283 : ℝ) < Real.exp 1 := Real.exp_one_gt_d9
  have he_hi : Real.exp 1 < 2.7182818286 := Real.exp_one_lt_d9
  have huinv : u = (Real.exp 1)⁻¹ := by
    rw [hu, ← Real.exp_neg]
  have hu1 : (0.3678794411 : ℝ) < u := by
    rw [huinv]
    have h2 : (0 : ℝ) < Real.exp 1 := Real.exp_pos 1
    rw [lt_inv_comm₀ (by norm_num) h2]
    calc Real.exp 1 < 2.7182818286 := he_hi
      _ < 0.3678794411⁻¹ := by norm_num
  have hu2 : u < 0.3678794412 := by
    rw [huinv]
    have h2 : (0 : ℝ) < Real.exp 1 := Real.exp_pos 1
    rw [inv_lt_comm₀ h2 (by norm_num)]
    calc (0.3678794412 : ℝ)⁻¹ < 2.7182818283 := by norm_num
      _ < Real.exp 1 := he_lo
  have hv1 : (0.13533528 : ℝ) < v := by nlinarith
  have hv2 : v < 0.13533529 := by nlinarith
  have hS0 : (0 : ℝ) < v + (u + 1) := by linarith
  rw [hform]
  simp only [List.getD_cons_zero, List.getD_cons_succ]
  refine ⟨?_, ?_, ?_⟩
  · rw [abs_sub_lt_iff]
    constructor
    · rw [sub_lt_iff_lt_add, div_lt_iff₀ hS0]
      linarith
    · rw [sub_lt_iff_lt_add, ← sub_lt_iff_lt_add', lt_div_iff₀ hS0]
      linarith
  · rw [abs_sub_lt_iff]
    constructor
    · rw [sub_lt_iff_lt_add, div_lt_iff₀ hS0]
      linarith
    · rw [sub_lt_iff_lt_add, ← sub_lt_iff_lt_add', lt_div_iff₀ hS0]
      linarith
  · rw [abs_sub_lt_iff]
    constructor
    · rw [sub_lt_iff_lt_add, div_lt_iff₀ hS0]
      linarith
    · rw [sub_lt_iff_lt_add, ← sub_lt_iff_lt_add', lt_div_iff₀ hS0]
      linarith

/-! ## Claim theorems -/

/-- C1: for every non-empty input matrix, weight matrix and bias, the value
`linear(input, weights, bias)` computes before the activation step satisfies
`output[i][j] = matmul(input, weights)[i][j] + bias[j]` for all rows `i` and
columns `j` of the intermediate matrix. -/
theorem linear_pre_activation_eq_matmul_plus_bias (input weights : Mat)
    (bias : List ℚ) (hne : input ≠ []) (M : Mat)
    (hM : linearPre input weights bias = some M) (i j : ℕ)
    (hj : j < ((matmul input weights).getD i []).length) :
    (M.getD i []).getD j 0 =
      ((matmul input weights).getD i []).getD j 0 + bias.getD j 0 := by
  rw [linearPre_eq input weights bias hne, Option.some.injEq, addBiasHost_eq] at hM
  have hi : i < (matmul input weights).length := by
    by_contra hlt
    push_neg at hlt
    rw [List.getD_eq_default _ _ hlt] at hj
    simp at hj
  have hrowlen : ((matmul input weights).getD i []).length = (weights.headD []).length :=
    matmul_row_length input weights i hi
  subst hM
  have hiM : i < ((matmul input weights).map (fun row =>
      row.mapIdx (fun j v =>
        if j < ((matmul input weights).headD []).length
        then v + bias.getD j 0 else v))).length := by
    simpa using hi
  rw [List.getD_eq_getElem _ _ hiM, List.getElem_map,
    ← List.getD_eq_getElem (matmul input weights) [] hi]
  rw [getD_mapIdx _ _ _ hj]
  have hguard : j < ((matmul input weights).headD []).length := by
    rw [matmul_headD_length input weights hne]
    rw [hrowlen] at hj
    exact hj
  rw [if_pos hguard]

/-- Witness for C1 at input `[[1,2],[3,4]]`, weights `[[5,6],[7,8]]`, bias
`[10,20]`: the intermediate matrix is `[[29,42],[53,70]]` and its entry
`(0,1)` is `matmul` entry `(0,1)` plus `bias[1]`. -/
theorem linear_pre_activation_eq_matmul_plus_bias_witness :
    ([[(1:ℚ),2],[3,4]] : Mat) ≠ [] ∧
    linearPre [[1,2],[3,4]] [[5,6],[7,8]] [10,20] = some [[29,42],[53,70]] ∧
    (([[(29:ℚ),42],[53,70]] : Mat).getD 0 []).getD 1 0 =
      ((matmul [[1,2],[3,4]] [[5,6],[7,8]]).getD 0 []).getD 1 0 +
        ([(10:ℚ),20] : List ℚ).getD 1 0 := by
  have hne : ([[(1:ℚ),2],[3,4]] : Mat) ≠ [] := by simp
  have hM : linearPre [[1,2],[3,4]] [[5,6],[7,8]] [10,20] = some [[29,42],[53,70]] := by
    simp [linearPre, addBiasHost, matmul, List.range_succ]
    norm_num
  have hj : (1:ℕ) < ((matmul [[1,2],[3,4]] [[5,6],[7,8]]).getD 0 []).length := by
    simp [matmul, List.range_succ]
  exact ⟨hne, hM,
    linear_pre_activation_eq_matmul_plus_bias [[1,2],[3,4]] [[5,6],[7,8]] [10,20]
      hne [[29,42],[53,70]] hM 0 1 hj⟩

/-- C5: for dimension-compatible `A` (`M×K`) and `B` (`K×N`), `matmul A B`
equals the triple-loop reference product
`C[i][j] = Σ_{k<K} A[i][k] * B[k][j]` (exact over `ℚ`, hence within any
tolerance). -/
theorem matmul_eq_reference (A B : Mat) (hcompat : ∀ r ∈ A, r.length = B.length)
    (i j : ℕ) (hi : i < A.length) (hj : j < (B.headD []).length) :
    ((matmul A B).getD i []).getD j 0 =
      ∑ k ∈ Finset.range B.length, (A.getD i []).getD k 0 * (B.getD k []).getD j 0 := by
  rw [matmul_entry A B i j hi hj, sum_list_range_eq_finset]

/-- Witness for C5 at concrete scenario 1: `A = [[1,2],[3,4]]`,
`B = [[5,6],[7,8]]`; the reference identity holds at entry `(0,0)` and the
full product is `[[19,22],[43,50]]`. -/
theorem matmul_eq_reference_witness :
    (∀ r ∈ ([[(1:ℚ),2],[3,4]] : Mat), r.length = ([[(5:ℚ),6],[7,8]] : Mat).length) ∧
    (((matmul [[1,2],[3,4]] [[5,6],[7,8]]).getD 0 []).getD 0 0 =
      ∑ k ∈ Finset.range ([[(5:ℚ),6],[7,8]] : Mat).length,
        (([[(1:ℚ),2],[3,4]] : Mat).getD 0 []).getD k 0 *
          (([[(5:ℚ),6],[7,8]] : Mat).getD k []).getD 0 0) ∧
    matmul [[1,2],[3,4]] [[5,6],[7,8]] = [[19,22],[43,50]] := by
  refine ⟨by simp, ?_, ?_⟩
  · exact matmul_eq_reference [[1,2],[3,4]] [[5,6],[7,8]] (by simp) 0 0
      (by simp) (by simp)
  · simp [matmul, List.range_succ]
    norm_num

/-- C2 (the code lacks the mandated behavior): at the mismatched operands
`input = [[1,2,3],[4,5,6]]` (2×3) and `weights = [[5,6],[7,8]]` (2×2, so the
inner dimensions 2 and 3 disagree), `linearCUBLAS` reports no
`InvalidDimension` error and still performs all four device allocations —
the validation the spec mandates is absent. -/
theorem linearCUBLAS_mismatch_still_allocates :
    (([[(5:ℚ),6],[7,8]] : Mat).headD []).length ≠
      (([[(1:ℚ),2,3],[4,5,6]] : Mat).headD []).length ∧
    (linearCUBLASrun [[1,2,3],[4,5,6]] [[5,6],[7,8]] [1,2]).countP
      OrchEvent.isAlloc = 4 ∧
    (linearCUBLASrun [[1,2,3],[4,5,6]] [[5,6],[7,8]] [1,2]).countP
      OrchEvent.isInvalidDim = 0 ∧
    (linearCUBLASrun [[1,2,3],[4,5,6]] [[5,6],[7,8]] [1,2]).countP
      OrchEvent.isDeviceOp = 14 := by
  refine ⟨by simp, ?_, ?_, ?_⟩ <;> rfl

/-- C7: for every input shape, every device buffer `linearCUBLAS` allocates
is freed before the call returns — the trace leaves no live buffer, and
every free targets a buffer that was allocated earlier in the same call and
not yet freed.  (The function has a single exit path and no early returns,
so this covers every exit path.) -/
theorem linearCUBLAS_frees_all_buffers (batchSize inputDim outputDim biasSize : ℕ) :
    liveAfter (linearCUBLAStrace batchSize inputDim outputDim biasSize) = [] ∧
    freesScoped (linearCUBLAStrace batchSize inputDim outputDim biasSize) = true :=
  ⟨rfl, rfl⟩

/-- C8: for every input shape, the single host read of device results in
`linearCUBLAS` (the reassembly of the 2-D output) happens only after a
`cudaStreamSynchronize` that was itself issued after the asynchronous
device-to-host copy of the output buffer. -/
theorem linearCUBLAS_sync_before_host_read (batchSize inputDim outputDim biasSize : ℕ) :
    hostReadsSynced (linearCUBLAStrace batchSize inputDim outputDim biasSize)
      false false = true ∧
    (linearCUBLAStrace batchSize inputDim outputDim biasSize).countP
      OrchEvent.isHostRead = 1 :=
  ⟨rfl, rfl⟩

/-- C6: for every non-empty input row, `softmax` produces a probability
distribution — all output values are non-negative and the row sums to
exactly 1 (over `ℝ`; hence within the `1e-5` floating tolerance), for rows
of any magnitude since the row maximum is subtracted before
exponentiating. -/
theorem softmax_is_distribution (r : List ℝ) (hne : r ≠ []) :
    (softmax r).sum = 1 ∧ ∀ x ∈ softmax r, 0 ≤ x := by
  unfold softmax
  set m := r.foldl max (r.headD 0) with hm
  set exps := r.map (fun x => Real.exp (x - m)) with hexps
  have hnil : exps ≠ [] := by
    simp [hexps, hne]
  have hpos : ∀ e ∈ exps, 0 < e := by
    intro e he
    rw [hexps] at he
    obtain ⟨x, _, rfl⟩ := List.mem_map.mp he
    exact Real.exp_pos _
  have hsum : 0 < exps.sum := List.sum_pos exps hpos hnil
  constructor
  · have hdiv : (exps.map (fun e => e / exps.sum)).sum = exps.sum / exps.sum := by
      simp only [div_eq_mul_inv]
      rw [List.sum_map_mul_right]
      simp
    rw [hdiv, div_self (ne_of_gt hsum)]
  · intro x hx
    obtain ⟨e, he, rfl⟩ := List.mem_map.mp hx
    exact div_nonneg (le_of_lt (hpos e he)) (le_of_lt hsum)

/-- Witness for C6 at concrete scenario 2, the row `[1,2,3]`: it is a
distribution and its entries are within `0.001` of `0.0900`, `0.2447`,
`0.6652`. -/
theorem softmax_is_distribution_witness :
    ([(1:ℝ),2,3] ≠ ([] : List ℝ)) ∧
    ((softmax [1,2,3]).sum = 1 ∧ ∀ x ∈ softmax [1,2,3], 0 ≤ x) ∧
    (|(softmax [1,2,3]).getD 0 0 - 0.0900| < 0.001 ∧
     |(softmax [1,2,3]).getD 1 0 - 0.2447| < 0.001 ∧
     |(softmax [1,2,3]).getD 2 0 - 0.6652| < 0.001) :=
  ⟨by simp, softmax_is_distribution [1,2,3] (by simp), softmax_scenario_numeric⟩

/-- C4: the two realizations of the bias-fusion stage are equivalent: for an
`M×N` output matrix and a bias of length `N`, the host-side row pass and the
`addBiasEfficient` kernel (launched on the covering grid that `linearCUBLAS`
uses) produce the same buffer, and both transform `output[i][j]` into
`output[i][j] + bias[j]` for all `i < M`, `j < N`. -/
theorem addBias_host_device_equivalent (output : Mat) (bias : List ℚ) (N : ℕ)
    (hrows : ∀ r ∈ output, r.length = N) (hbias : bias.length = N) :
    flatten (addBiasHost output bias) =
      addBiasEfficientLaunch output.length N ((N + 15) / 16 * 16)
        ((output.length + 15) / 16 * 16) bias (flatten output) ∧
    ∀ i j, i < output.length → j < N →
      ((addBiasHost output bias).getD i []).getD j 0 =
        (output.getD i []).getD j 0 + bias.getD j 0 := by
  have helem : ∀ i j, i < output.length → j < N →
      ((addBiasHost output bias).getD i []).getD j 0 =
        (output.getD i []).getD j 0 + bias.getD j 0 := by
    intro i j hi hj
    have hne : output ≠ [] := by
      intro hc
      rw [hc] at hi
      simp at hi
    have hrl : (output.getD i []).length = N := by
      rw [List.getD_eq_getElem _ _ hi]
      exact hrows _ (List.getElem_mem hi)
    have hguard : j < (output.headD []).length := by
      rw [headD_eq_getD_zero output hne]
      have h0 : 0 < output.length := List.length_pos.mpr hne
      rw [List.getD_eq_getElem _ _ h0]
      rw [hrows _ (List.getElem_mem h0)]
      exact hj
    exact addBiasHost_entry output bias i j hi (by omega) hguard
  refine ⟨?_, helem⟩
  have hunif' := addBiasHost_rows_uniform output bias N hrows
  have hlen1 : (flatten (addBiasHost output bias)).length = output.length * N := by
    rw [flatten_length_uniform _ N hunif', addBiasHost_length]
  have hlen2 : (flatten output).length = output.length * N :=
    flatten_length_uniform _ N hrows
  apply List.ext_getElem
  · rw [hlen1, addBiasEfficientLaunch_length, hlen2]
  · intro idx h1 h2
    rw [hlen1] at h1
    have hN : 0 < N := by
      rcases Nat.eq_zero_or_pos N with h | h
      · rw [h, Nat.mul_zero] at h1; omega
      · exact h
    set i := idx / N with hidef
    set j := idx % N with hjdef
    have hj : j < N := Nat.mod_lt _ hN
    have hi : i < output.length := by
      rw [hidef]
      rw [Nat.div_lt_iff_lt_mul hN]
      exact h1
    have hidx : i * N + j = idx := by
      rw [hidef, hjdef, Nat.mul_comm]
      exact Nat.div_add_mod idx N
    have hlt1 : idx < (flatten (addBiasHost output bias)).length := by rw [hlen1]; exact h1
    have hlt2 : idx < (flatten output).length := by rw [hlen2]; exact h1
    rw [← List.getD_eq_getElem _ 0 hlt1]
    rw [← List.getD_eq_getElem _ 0 _]
    rw [← hidx]
    rw [flatten_getD_uniform _ N hunif' i j (by rwa [addBiasHost_length]) hj]
    rw [addBiasEfficientLaunch_getD_in _ _ _ _ _ _ i j hi hj (by omega) (by omega)
      (by rw [hidx]; exact hlt2)]
    rw [flatten_getD_uniform _ N hrows i j hi hj]
    exact helem i j hi hj

/-- Witness for C4 at concrete scenario 3: the row `[2,2]` with bias
`[1,−1]` becomes `[3,1]`, and the host pass equals the kernel launch on the
flat buffer. -/
theorem addBias_host_device_equivalent_witness :
    (∀ r ∈ ([[(2:ℚ),2]] : Mat), r.length = 2) ∧
    ([(1:ℚ),-1] : List ℚ).length = 2 ∧
    (flatten (addBiasHost [[2,2]] [1,-1]) =
      addBiasEfficientLaunch 1 2 ((2 + 15) / 16 * 16) ((1 + 15) / 16 * 16)
        [1,-1] (flatten [[2,2]]) ∧
     ∀ i j, i < ([[(2:ℚ),2]] : Mat).length → j < 2 →
      ((addBiasHost [[2,2]] [1,-1]).getD i []).getD j 0 =
        (([[(2:ℚ),2]] : Mat).getD i []).getD j 0 + ([(1:ℚ),-1] : List ℚ).getD j 0) ∧
    addBiasHost [[(2:ℚ),2]] [1,-1] = [[3,1]] := by
  refine ⟨by simp, by simp, ?_, ?_⟩
  · have := addBias_host_device_equivalent [[2,2]] [1,-1] 2 (by simp) (by simp)
    simpa using this
  · simp [addBiasHost]
    norm_num

/-- C10: the `addBiasEfficient` kernel modifies only the first
`batchSize*outputDim` elements of the output buffer: a thread whose row is
`≥ batchSize` or whose column is `≥ outputDim` writes nothing, and for any
grid the launch leaves every element at an index `≥ batchSize*outputDim`
unchanged (and never changes the buffer's length). -/
theorem addBiasEfficient_frame (bs od gx gy : ℕ) (bias buf : List ℚ) :
    (∀ t : ℕ × ℕ, ¬(t.1 < bs ∧ t.2 < od) → addBiasThread bs od bias buf t = buf) ∧
    (addBiasEfficientLaunch bs od gx gy bias buf).length = buf.length ∧
    ∀ idx d, bs * od ≤ idx →
      (addBiasEfficientLaunch bs od gx gy bias buf).getD idx d = buf.getD idx d := by
  refine ⟨?_, addBiasEfficientLaunch_length bs od gx gy bias buf, ?_⟩
  · intro t ht
    unfold addBiasThread
    rw [if_neg ht]
  · intro idx d hidx
    exact addBiasEfficientLaunch_getD_out bs od gx gy bias buf idx d hidx

/-- The value `linearCUBLAS` computes on a non-empty batch, with the
dimension reads resolved. -/
theorem linearCUBLASresult_eq (input weights : Mat) (bias : List ℚ)
    (hne : input ≠ []) :
    linearCUBLASresult input weights bias =
      some (unflatten
        (addBiasEfficientLaunch input.length weights.length
          ((weights.length + 15) / 16 * 16) ((input.length + 15) / 16 * 16)
          bias
          (sgemmTN (flatten weights) (flatten input) weights.length
            input.length (input.headD []).length))
        input.length weights.length) := by
  cases input with
  | nil => exact absurd rfl hne
  | cons r0 rest => rfl

/-- C3 (amended): on compatible shapes, the custom-kernel strategy equals the
vendor-routine strategy composed with the final ReLU activation: `linear`
applies ReLU after the bias add, while `linearCUBLAS` (on the transposed
weight layout) returns the raw `input·Wᵀ + bias`; the strategies therefore
agree up to the activation, not on the final output matrix. -/
theorem linear_eq_relu_of_linearCUBLAS (input weights : Mat) (bias : List ℚ)
    (hne : input ≠ []) (hwne : weights ≠ [])
    (hin : ∀ r ∈ input, r.length = weights.length)
    (hw : ∀ r ∈ weights, r.length = (weights.headD []).length) :
    linear input weights bias =
      (linearCUBLASresult input (transpose weights) bias).map
        (fun m => m.map (fun row => row.map relu)) := by
  unfold linear
  rw [linearPre_eq input weights bias hne,
    linearCUBLASresult_eq input (transpose weights) bias hne,
    Option.map_some', Option.map_some']
  set K := weights.length with hKdef
  set N := (weights.headD []).length with hNdef
  set bs := input.length with hbsdef
  have htl : (transpose weights).length = N := transpose_length weights
  have hhead : (input.headD []).length = K := by
    have h0 : 0 < input.length := List.length_pos.mpr hne
    rw [headD_eq_getD_zero input hne, List.getD_eq_getElem _ _ h0]
    exact hin _ (List.getElem_mem h0)
  congr 1
  have hmain : addBiasHost (matmul input weights) bias =
      unflatten
        (addBiasEfficientLaunch bs (transpose weights).length
          (((transpose weights).length + 15) / 16 * 16) ((bs + 15) / 16 * 16)
          bias
          (sgemmTN (flatten (transpose weights)) (flatten input)
            (transpose weights).length bs (input.headD []).length))
        bs (transpose weights).length := by
    rw [htl, hhead]
    set G := sgemmTN (flatten (transpose weights)) (flatten input) N bs K with hGdef
    set L := addBiasEfficientLaunch bs N ((N + 15) / 16 * 16) ((bs + 15) / 16 * 16)
      bias G with hLdef
    have hOlen : (matmul input weights).length = bs := matmul_length input weights
    apply List.ext_getElem
    · rw [addBiasHost_length, hOlen, unflatten_length]
    · intro i hi1 hi2
      have hibs : i < bs := by rwa [addBiasHost_length, hOlen] at hi1
      rw [← List.getD_eq_getElem _ [] hi1, ← List.getD_eq_getElem _ [] hi2,
        unflatten_getD_row _ _ _ _ hibs]
      have hOrow : ((matmul input weights).getD i []).length = N :=
        matmul_row_length input weights i (by rwa [hOlen])
      apply List.ext_getElem
      · rw [addBiasHost_row_length, hOrow]
        simp
      · intro j hj1 hj2
        have hjN : j < N := by
          rwa [addBiasHost_row_length, hOrow] at hj1
        rw [← List.getD_eq_getElem _ 0 hj1, ← List.getD_eq_getElem _ 0 hj2,
          getD_range_map _ _ _ _ hjN]
        have hlhs : ((addBiasHost (matmul input weights) bias).getD i []).getD j 0 =
            ((matmul input weights).getD i []).getD j 0 + bias.getD j 0 := by
          apply addBiasHost_entry
          · rwa [hOlen]
          · rwa [hOrow]
          · rwa [matmul_headD_length input weights hne]
        have hGlen : i * N + j < G.length := by
          rw [hGdef, sgemmTN_length]
          exact rowMajor_lt hibs hjN
        have hrhs1 : L.getD (i * N + j) 0 = G.getD (i * N + j) 0 + bias.getD j 0 := by
          rw [hLdef]
          exact addBiasEfficientLaunch_getD_in bs N _ _ bias G i j hibs hjN
            (by omega) (by omega) hGlen
        have hrhs2 : G.getD (i * N + j) 0 =
            ((List.range K).map (fun k =>
              (flatten (transpose weights)).getD (j * K + k) 0 *
              (flatten input).getD (i * K + k) 0)).sum := by
          rw [hGdef]
          exact sgemmTN_getD _ _ N bs K i j hibs hjN
        have hsummand : ∀ k ∈ List.range K,
            (flatten (transpose weights)).getD (j * K + k) 0 *
              (flatten input).getD (i * K + k) 0 =
            (weights.getD k []).getD j 0 * (input.getD i []).getD k 0 := by
          intro k hk
          rw [List.mem_range] at hk
          have hfw : (flatten (transpose weights)).getD (j * K + k) 0 =
              ((transpose weights).getD j []).getD k 0 := by
            apply flatten_getD_uniform (transpose weights) K
              (fun r hr => transpose_rows_uniform weights r hr) j k
              (by rwa [htl]) hk
          rw [hfw, transpose_entry weights k j hk hjN,
            flatten_getD_uniform input K hin i k hibs hk]
        have hO : ((matmul input weights).getD i []).getD j 0 =
            ((List.range K).map (fun k =>
              (input.getD i []).getD k 0 * (weights.getD k []).getD j 0)).sum :=
          matmul_entry input weights i j hibs hjN
        rw [hlhs, hrhs1, hrhs2, hO, List.map_congr_left hsummand]
        have hcomm : ∀ k ∈ List.range K,
            (input.getD i []).getD k 0 * (weights.getD k []).getD j 0 =
            (weights.getD k []).getD j 0 * (input.getD i []).getD k 0 := by
          intro k _
          ring
        rw [List.map_congr_left hcomm]
  rw [hmain]

/-- C3 counterexample: at input `[[1]]`, weights `[[-1]]` (passed to
`linearCUBLAS` in transposed layout) and bias `[0]`, the custom-kernel
strategy returns `[[0]]` (ReLU clamps the negative pre-activation) while the
vendor-routine strategy returns `[[-1]]` — the two strategies do not return
the same output matrix. -/
theorem linear_CUBLAS_not_interchangeable :
    linear [[1]] [[-1]] [0] = some [[0]] ∧
    linearCUBLASresult [[1]] (transpose [[-1]]) [0] = some [[-1]] ∧
    linear [[1]] [[-1]] [0] ≠ linearCUBLASresult [[1]] (transpose [[-1]]) [0] := by
  have hne1 : ([[(1:ℚ)]] : Mat) ≠ [] := by simp
  have h1 : linear [[1]] [[-1]] [0] = some [[0]] := by
    unfold linear
    rw [linearPre_eq _ _ _ hne1]
    have hmm : matmul [[1]] [[-1]] = [[-1]] := by
      simp [matmul, List.range_succ]
    rw [hmm]
    have hab : addBiasHost [[(-1:ℚ)]] [0] = [[-1]] := by
      simp [addBiasHost]
    rw [hab]
    simp [relu]
  have hT : transpose [[(-1:ℚ)]] = [[-1]] := by
    simp [transpose, List.range_succ]
  have hG : sgemmTN [-1] [1] 1 1 1 = [-1] := by
    simp [sgemmTN, List.range_succ]
  have hL : addBiasEfficientLaunch 1 1 16 16 [0] [-1] = [-1] := by
    apply List.ext_getElem
    · rw [addBiasEfficientLaunch_length]
    · intro n h1 h2
      rw [addBiasEfficientLaunch_length] at h1
      simp only [List.length_cons, List.length_nil] at h1
      have hn : n = 0 := by omega
      subst hn
      rw [← List.getD_eq_getElem _ 0 h2, ← List.getD_eq_getElem _ 0 _]
      have := addBiasEfficientLaunch_getD_in 1 1 16 16 [0] [-1] 0 0
        (by omega) (by omega) (by omega) (by omega) (by simp)
      simpa using this
  have h2 : linearCUBLASresult [[1]] (transpose [[-1]]) [0] = some [[-1]] := by
    rw [linearCUBLASresult_eq [[1]] (transpose [[-1]]) [0] hne1, hT]
    have hf1 : flatten [[(-1:ℚ)]] = [-1] := by simp [flatten]
    have hf2 : flatten [[(1:ℚ)]] = [1] := by simp [flatten]
    simp only [List.length_cons, List.length_nil, List.headD_cons, hf1, hf2]
    norm_num
    rw [hG, hL]
    simp [unflatten, List.range_succ]
  refine ⟨h1, h2, ?_⟩
  rw [h1, h2]
  intro hc
  rw [Option.some.injEq] at hc
  have := congrArg (fun m : Mat => (m.getD 0 []).getD 0 0) hc
  norm_num at this

/-- Witness for C3's amended equivalence at input `[[1]]`, weights `[[-1]]`,
bias `[0]`. -/
theorem linear_eq_relu_of_linearCUBLAS_witness :
    ([[(1:ℚ)]] : Mat) ≠ [] ∧ ([[(-1:ℚ)]] : Mat) ≠ [] ∧
    (∀ r ∈ ([[(1:ℚ)]] : Mat), r.length = ([[(-1:ℚ)]] : Mat).length) ∧
    (∀ r ∈ ([[(-1:ℚ)]] : Mat), r.length = (([[(-1:ℚ)]] : Mat).headD []).length) ∧
    linear [[1]] [[-1]] [0] =
      (linearCUBLASresult [[1]] (transpose [[-1]]) [0]).map
        (fun m => m.map (fun row => row.map relu)) :=
  ⟨by simp, by simp, by simp, by simp,
    linear_eq_relu_of_linearCUBLAS [[1]] [[-1]] [0] (by simp) (by simp)
      (by simp) (by simp)⟩

/-- C9: both orchestration entry points require a non-empty input batch:
with at least one row the out-of-bounds dimension read (`output[0]` in
`linear`, `input[0]` in `linearCUBLAS`) is unreachable and the calls
produce a value; on the empty batch the read is out of bounds (modelled as
`none`). -/
theorem entry_points_need_nonempty_batch (input weights : Mat) (bias : List ℚ)
    (hne : input ≠ []) :
    (linear input weights bias).isSome ∧
    (linearCUBLASresult input weights bias).isSome ∧
    linear [] weights bias = none ∧
    linearCUBLASresult [] weights bias = none := by
  refine ⟨?_, ?_, rfl, rfl⟩
  · unfold linear
    rw [linearPre_eq _ _ _ hne]
    rfl
  · rw [linearCUBLASresult_eq _ _ _ hne]
    rfl

/-- Witness for C9 at input `[[1]]`, weights `[[2]]`, bias `[3]`. -/
theorem entry_points_need_nonempty_batch_witness :
    ([[(1:ℚ)]] : Mat) ≠ [] ∧
    ((linear [[1]] [[2]] [3]).isSome ∧
     (linearCUBLASresult [[1]] [[2]] [3]).isSome ∧
     linear [] [[2]] [3] = none ∧
     linearCUBLASresult [] [[2]] [3] = none) :=
  ⟨by simp, entry_points_need_nonempty_batch [[1]] [[2]] [3] (by simp)⟩

/-- Witness for C10 with a 1×1 region inside a buffer of length 2 and the
out-of-guard thread `(3,0)`. -/
theorem addBiasEfficient_frame_witness :
    ¬((3:ℕ) < 1 ∧ (0:ℕ) < 1) ∧ (1:ℕ) * 1 ≤ 1 ∧
    addBiasThread 1 1 [5] [7,9] (3,0) = [7,9] ∧
    (addBiasEfficientLaunch 1 1 16 16 [5] [7,9]).getD 1 0 =
      ([7,9] : List ℚ).getD 1 0 :=
  ⟨by omega, by omega,
    (addBiasEfficient_frame 1 1 16 16 [5] [7,9]).1 (3,0) (by omega),
    (addBiasEfficient_frame 1 1 16 16 [5] [7,9]).2.2 1 0 (by omega)⟩

end Syntari
